import Mathlib

/-!
Verification of the storage core of the `mega` repository: the binary delta
engine (crate `delta`) and the content-addressed object model (crate `venus`,
file `src/internal/object/blob.rs`).

Bytes are modelled as natural numbers (values < 256 where it matters) and byte
sequences as `List Nat`.  The delta crate's `lib.rs` is present in the sources
but the modules `decode`, `encode`, `errors` it re-exports are not; those parts
are modelled from the specification, as marked on each definition.
-/

namespace Mega

/-- Modelled from the spec: the error taxonomy of the Delta Apply engine
(`DecodeError` in the missing `delta/src/errors.rs`): `OutOfRange` when a copy
instruction references bytes beyond the base, `Truncated` when the instruction
stream ends mid-instruction. -/
inductive DecodeError where
  | outOfRange : DecodeError
  | truncated : DecodeError
deriving DecidableEq, Repr

/-- Modelled from the spec: a delta instruction is either a copy of a byte
range of the base (offset and length) or an inline literal run of bytes
(§3 of the spec, "Delta"). -/
inductive DeltaInst where
  | copy (offset len : Nat) : DeltaInst
  | insert (bytes : List Nat) : DeltaInst
deriving DecidableEq, Repr

/-- Modelled from the spec: little-endian base-128 varint encoding of a
natural number, used to serialize offsets and lengths inside the delta
instruction stream. -/
def encodeVarint (n : Nat) : List Nat :=
  if h : n < 128 then [n]
  else (128 + n % 128) :: encodeVarint (n / 128)
termination_by n
decreasing_by
  exact Nat.div_lt_self (Nat.lt_of_lt_of_le (by omega) (Nat.le_of_not_lt h)) (by omega)

/-- Modelled from the spec: read one varint from the head of a byte stream,
returning the decoded number and the remaining bytes, or `Truncated` when the
stream ends inside the varint. -/
def decodeVarint : List Nat → Except DecodeError (Nat × List Nat)
  | [] => .error .truncated
  | b :: rest =>
    if b < 128 then .ok (b, rest)
    else
      match decodeVarint rest with
      | .ok (n, rest₁) => .ok ((b - 128) + 128 * n, rest₁)
      | .error e => .error e

/-- Modelled from the spec: byte serialization of one delta instruction.
Tag byte `0` introduces an insert (varint literal length, then the literal
bytes); any nonzero tag (the encoder emits `1`) introduces a copy (varint
offset, then varint length). -/
def encodeInst : DeltaInst → List Nat
  | .insert bs => 0 :: (encodeVarint bs.length ++ bs)
  | .copy off len => 1 :: (encodeVarint off ++ encodeVarint len)

/-- Modelled from the spec: serialization of a whole instruction stream. -/
def serializeInsts (insts : List DeltaInst) : List Nat :=
  (insts.map encodeInst).flatten

theorem decodeVarint_consumes :
    ∀ (l : List Nat) (n : Nat) (rest : List Nat),
      decodeVarint l = .ok (n, rest) → rest.length < l.length := by
  intro l
  induction l with
  | nil => intro n rest h; simp [decodeVarint] at h
  | cons b tail ih =>
    intro n rest h
    by_cases hb : b < 128
    · simp [decodeVarint, hb] at h
      obtain ⟨h₁, h₂⟩ := h
      subst h₂
      simp
    · simp [decodeVarint, hb] at h
      cases htl : decodeVarint tail with
      | ok p =>
        obtain ⟨m, rest₁⟩ := p
        rw [htl] at h
        simp at h
        have := ih m rest₁ htl
        simp [← h.2, List.length_cons]
        omega
      | error e => rw [htl] at h; simp at h

/-- Modelled from the spec (§4.4): the Delta Apply engine walks the
instruction stream in order, appending to an output buffer: for copy
instructions it appends `base[offset .. offset+length]` after checking the
range against the base, for insert instructions it appends the literal bytes.
It fails with `OutOfRange` when a copy exceeds the base and with `Truncated`
when the stream ends mid-instruction. -/
def deltaDecodeAux (base : List Nat) : List Nat → List Nat → Except DecodeError (List Nat)
  | [], acc => .ok acc
  | tag :: rest, acc =>
    if tag = 0 then
      match h : decodeVarint rest with
      | .error e => .error e
      | .ok (len, rest₁) =>
        if len ≤ rest₁.length then
          deltaDecodeAux base (rest₁.drop len) (acc ++ rest₁.take len)
        else .error .truncated
    else
      match h : decodeVarint rest with
      | .error e => .error e
      | .ok (off, rest₁) =>
        match h₂ : decodeVarint rest₁ with
        | .error e => .error e
        | .ok (len, rest₂) =>
          if off + len ≤ base.length then
            deltaDecodeAux base rest₂ (acc ++ (base.drop off).take len)
          else .error .outOfRange
termination_by delta _ => delta.length
decreasing_by
  · have h₁ := decodeVarint_consumes rest len rest₁ h
    have : (rest₁.drop len).length ≤ rest₁.length := by
      simp [List.length_drop]
    simp [List.length_cons]
    omega
  · have h₁ := decodeVarint_consumes rest off rest₁ h
    have h₃ := decodeVarint_consumes rest₁ len rest₂ h₂
    simp [List.length_cons]
    omega

/-- Modelled from the spec: `delta_decode(base, delta)` from the missing
`delta/src/decode.rs`, re-exported by `delta/src/lib.rs`. -/
def delta_decode (base delta : List Nat) : Except DecodeError (List Nat) :=
  deltaDecodeAux base delta []

/-- Modelled from the spec: the chunk index of the Diff Engine, instantiated
with window size 1: it maps a byte value to the earliest offset at which it
occurs in `old` (ties between equal-length matches break toward the earliest
offset, §4.3). -/
def firstMatch : List Nat → Nat → Option Nat
  | [], _ => none
  | a :: rest, b => if a = b then some 0 else (firstMatch rest b).map (· + 1)

/-- Modelled from the spec: length of the longest common prefix of two byte
sequences, the greedy match extension of the Diff Engine. -/
def matchLen : List Nat → List Nat → Nat
  | a :: as₁, b :: bs₁ => if a = b then matchLen as₁ bs₁ + 1 else 0
  | _, _ => 0

theorem firstMatch_drop :
    ∀ (old : List Nat) (b off : Nat), firstMatch old b = some off →
      ∃ tail, old.drop off = b :: tail := by
  intro old
  induction old with
  | nil => intro b off h; simp [firstMatch] at h
  | cons a rest ih =>
    intro b off h
    by_cases hab : a = b
    · simp [firstMatch, hab] at h
      subst hab
      exact ⟨rest, by simp [← h]⟩
    · simp [firstMatch, hab] at h
      obtain ⟨off₁, hoff₁, hsum⟩ := h
      obtain ⟨tail, htail⟩ := ih b off₁ hoff₁
      exact ⟨tail, by simpa [← hsum] using htail⟩

theorem matchLen_pos (a : Nat) (xs ys : List Nat) :
    0 < matchLen (a :: xs) (a :: ys) := by
  simp [matchLen]

/-- Modelled from the spec (§4.3): the greedy scan of the Diff Engine over
`new`.  At each position it looks the current byte up in the chunk index of
`old`; on a hit it extends the match greedily and emits a copy instruction
(the minimum copy length threshold is 1, so every match becomes a copy), on a
miss it emits the byte as a literal insert. -/
def diffScan (old : List Nat) : List Nat → List DeltaInst
  | [] => []
  | b :: rest =>
    match hm : firstMatch old b with
    | some off =>
      .copy off (matchLen (old.drop off) (b :: rest)) ::
        diffScan old ((b :: rest).drop (matchLen (old.drop off) (b :: rest)))
    | none => .insert [b] :: diffScan old rest
termination_by rem => rem.length
decreasing_by
  · obtain ⟨tail, htail⟩ := firstMatch_drop old b off hm
    rw [htail]
    have hpos := matchLen_pos b tail rest
    simp [List.length_drop, List.length_cons]
    omega
  · simp [List.length_cons]

/-- Modelled from the spec: the `DeltaDiff` session object of the missing
`delta/src/encode.rs` (`DeltaDiff::new(old, new)` followed by `encode()` /
`get_ssam_rate()`).  It records the instruction stream the greedy scan
produced and the length of `new`. -/
structure DeltaDiff where
  insts : List DeltaInst
  newLen : Nat
deriving Repr

/-- Modelled from the spec: `DeltaDiff::new(old_data, new_data)` runs the
greedy diff scan over the pair. -/
def DeltaDiff.new (old new : List Nat) : DeltaDiff :=
  { insts := diffScan old new, newLen := new.length }

/-- Modelled from the spec: `DeltaDiff::encode()` serializes the instruction
stream to delta bytes. -/
def DeltaDiff.encode (d : DeltaDiff) : List Nat :=
  serializeInsts d.insts

/-- Number of bytes of the target an instruction satisfies via a copy. -/
def copiedLen : DeltaInst → Nat
  | .copy _ len => len
  | .insert _ => 0

/-- Modelled from the spec: the similarity ratio `get_ssam_rate()` — the
fraction of `new`'s bytes satisfied by copy instructions rather than literal
inserts, as an exact rational (the Rust signature returns `f64`; the exact
intermediate values are non-normative per §9).  An empty `new` is trivially
fully reconstructable, giving ratio 1. -/
def DeltaDiff.get_ssam_rate (d : DeltaDiff) : ℚ :=
  if d.newLen = 0 then 1
  else ((d.insts.map copiedLen).sum : ℚ) / (d.newLen : ℚ)

/-- From `delta/src/lib.rs`: `delta_encode` builds a `DeltaDiff` session and
returns its encoded instruction stream. -/
def delta_encode (old_data new_data : List Nat) : List Nat :=
  (DeltaDiff.new old_data new_data).encode

/-- From `delta/src/lib.rs`: `delta_encode_rate` builds a `DeltaDiff` session
and returns its similarity ratio. -/
def delta_encode_rate (old_data new_data : List Nat) : ℚ :=
  (DeltaDiff.new old_data new_data).get_ssam_rate

/-- Validity of a single instruction against a base: a copy must lie inside
the base, an insert is always valid. -/
def instOk (base : List Nat) : DeltaInst → Prop
  | .copy off len => off + len ≤ base.length
  | .insert _ => True

instance (base : List Nat) : ∀ i, Decidable (instOk base i)
  | .copy off len => inferInstanceAs (Decidable (off + len ≤ base.length))
  | .insert _ => inferInstanceAs (Decidable True)

/-- The bytes one instruction contributes to the reconstructed target. -/
def applyInst (base : List Nat) : DeltaInst → List Nat
  | .copy off len => (base.drop off).take len
  | .insert bs => bs

/-- The target an instruction stream reconstructs from a base. -/
def applyList (base : List Nat) (insts : List DeltaInst) : List Nat :=
  (insts.map (applyInst base)).flatten

theorem decodeVarint_encode (n : Nat) :
    ∀ tail, decodeVarint (encodeVarint n ++ tail) = .ok (n, tail) := by
  induction n using Nat.strong_induction_on with
  | _ n ih =>
    intro tail
    by_cases h : n < 128
    · rw [encodeVarint]
      simp [h, decodeVarint]
    · rw [encodeVarint]
      simp only [h]
      have hdiv : n / 128 < n :=
        Nat.div_lt_self (by omega) (by omega)
      have hrec := ih (n / 128) hdiv tail
      simp [decodeVarint, hrec, Nat.mod_add_div]

theorem deltaDecodeAux_nil (base acc : List Nat) :
    deltaDecodeAux base [] acc = .ok acc := by
  simp [deltaDecodeAux]

theorem deltaDecodeAux_copy (base : List Nat) (off len : Nat)
    (stream acc : List Nat) (hok : off + len ≤ base.length) :
    deltaDecodeAux base (1 :: (encodeVarint off ++ (encodeVarint len ++ stream))) acc
      = deltaDecodeAux base stream (acc ++ (base.drop off).take len) := by
  rw [deltaDecodeAux]
  simp only [if_neg (by omega : ¬ (1 : Nat) = 0)]
  split
  · next e he => simp [decodeVarint_encode] at he
  · next off₁ rest₁ he =>
    rw [decodeVarint_encode] at he
    obtain ⟨h₁, h₂⟩ : off = off₁ ∧ encodeVarint len ++ stream = rest₁ := by
      simpa using he
    subst h₁
    subst h₂
    split
    · next e he₂ => simp [decodeVarint_encode] at he₂
    · next len₁ rest₂ he₂ =>
      rw [decodeVarint_encode] at he₂
      obtain ⟨h₃, h₄⟩ : len = len₁ ∧ stream = rest₂ := by
        simpa using he₂
      subst h₃
      subst h₄
      rw [if_pos hok]

theorem deltaDecodeAux_insert (base : List Nat) (bs stream acc : List Nat) :
    deltaDecodeAux base (0 :: (encodeVarint bs.length ++ (bs ++ stream))) acc
      = deltaDecodeAux base stream (acc ++ bs) := by
  rw [deltaDecodeAux]
  split
  · split
    · next e he => simp [decodeVarint_encode] at he
    · next len₁ rest₁ he =>
      rw [decodeVarint_encode] at he
      obtain ⟨h₁, h₂⟩ : bs.length = len₁ ∧ bs ++ stream = rest₁ := by
        simpa using he
      subst h₁
      subst h₂
      rw [if_pos (by simp)]
      simp
  · next h => exact absurd rfl h

theorem deltaDecodeAux_serialize (base : List Nat) :
    ∀ (insts : List DeltaInst) (rest acc : List Nat),
      (∀ i ∈ insts, instOk base i) →
      deltaDecodeAux base (serializeInsts insts ++ rest) acc
        = deltaDecodeAux base rest (acc ++ applyList base insts) := by
  intro insts
  induction insts with
  | nil => intro rest acc _; simp [serializeInsts, applyList]
  | cons i tl ih =>
    intro rest acc hok
    have hi : instOk base i := hok i (by simp)
    have htl : ∀ j ∈ tl, instOk base j := fun j hj => hok j (by simp [hj])
    cases i with
    | copy off len =>
      have h₁ : serializeInsts (.copy off len :: tl) ++ rest
          = 1 :: (encodeVarint off ++ (encodeVarint len ++ (serializeInsts tl ++ rest))) := by
        simp [serializeInsts, encodeInst]
      rw [h₁, deltaDecodeAux_copy base off len _ acc hi, ih _ _ htl]
      simp [applyList, applyInst]
    | insert bs =>
      have h₁ : serializeInsts (.insert bs :: tl) ++ rest
          = 0 :: (encodeVarint bs.length ++ (bs ++ (serializeInsts tl ++ rest))) := by
        simp [serializeInsts, encodeInst]
      rw [h₁, deltaDecodeAux_insert, ih _ _ htl]
      simp [applyList, applyInst]

theorem matchLen_take_eq :
    ∀ xs ys : List Nat, xs.take (matchLen xs ys) = ys.take (matchLen xs ys) := by
  intro xs
  induction xs with
  | nil => intro ys; simp [matchLen]
  | cons a as₁ ih =>
    intro ys
    cases ys with
    | nil => simp [matchLen]
    | cons b bs₁ =>
      by_cases hab : a = b
      · subst hab
        simp [matchLen, ih bs₁]
      · simp [matchLen, hab]

theorem matchLen_le_left :
    ∀ xs ys : List Nat, matchLen xs ys ≤ xs.length := by
  intro xs
  induction xs with
  | nil => intro ys; simp [matchLen]
  | cons a as₁ ih =>
    intro ys
    cases ys with
    | nil => simp [matchLen]
    | cons b bs₁ =>
      by_cases hab : a = b
      · simp only [matchLen, if_pos hab, List.length_cons]
        exact Nat.succ_le_succ (ih bs₁)
      · simp [matchLen, hab]

theorem firstMatch_lt_length (old : List Nat) (b off : Nat)
    (h : firstMatch old b = some off) : off < old.length := by
  obtain ⟨tail, htail⟩ := firstMatch_drop old b off h
  have hlen : old.length - off = tail.length + 1 := by
    rw [← List.length_drop, htail, List.length_cons]
  omega

theorem diffScan_ok_and_covers (old : List Nat) :
    ∀ rem : List Nat,
      (∀ i ∈ diffScan old rem, instOk old i) ∧
        applyList old (diffScan old rem) = rem := by
  have H : ∀ (n : Nat) (rem : List Nat), rem.length ≤ n →
      (∀ i ∈ diffScan old rem, instOk old i) ∧
        applyList old (diffScan old rem) = rem := by
    intro n
    induction n with
    | zero =>
      intro rem hlen
      have : rem = [] := List.length_eq_zero.mp (Nat.le_zero.mp hlen)
      subst this
      simp [diffScan, applyList]
    | succ n ih =>
      intro rem hlen
      match rem with
      | [] => simp [diffScan, applyList]
      | b :: rest =>
        rw [diffScan]
        split
        · next off hm =>
          obtain ⟨tail, htail⟩ := firstMatch_drop old b off hm
          have hoff : off < old.length := firstMatch_lt_length old b off hm
          have hl₁ : 0 < matchLen (old.drop off) (b :: rest) := by
            rw [htail]; exact matchLen_pos b tail rest
          have hl₂ : matchLen (old.drop off) (b :: rest) ≤ old.length - off := by
            have := matchLen_le_left (old.drop off) (b :: rest)
            simpa [List.length_drop] using this
          have hrec := ih ((b :: rest).drop (matchLen (old.drop off) (b :: rest)))
            (by simp [List.length_drop, List.length_cons] at hlen ⊢; omega)
          refine ⟨?_, ?_⟩
          · intro i hi
            rcases List.mem_cons.mp hi with hi | hi
            · subst hi
              simp only [instOk]
              omega
            · exact hrec.1 i hi
          · simp only [applyList, List.map_cons, List.flatten_cons]
            have hcov : applyList old (diffScan old
                ((b :: rest).drop (matchLen (old.drop off) (b :: rest))))
                = (b :: rest).drop (matchLen (old.drop off) (b :: rest)) := hrec.2
            simp only [applyList] at hcov
            rw [hcov]
            have htake : applyInst old (.copy off (matchLen (old.drop off) (b :: rest)))
                = (b :: rest).take (matchLen (old.drop off) (b :: rest)) := by
              simp only [applyInst]
              exact matchLen_take_eq (old.drop off) (b :: rest)
            rw [htake, List.take_append_drop]
        · next hm =>
          have hrec := ih rest (by simp [List.length_cons] at hlen; omega)
          refine ⟨?_, ?_⟩
          · intro i hi
            rcases List.mem_cons.mp hi with hi | hi
            · subst hi; trivial
            · exact hrec.1 i hi
          · simp only [applyList, List.map_cons, List.flatten_cons, applyInst]
            have hcov := hrec.2
            simp only [applyList] at hcov
            rw [hcov]
            simp
  intro rem
  exact H rem.length rem (Nat.le_refl _)

theorem deltaDecodeAux_copy_oob (base : List Nat) (off len : Nat)
    (stream acc : List Nat) (hbad : base.length < off + len) :
    deltaDecodeAux base (1 :: (encodeVarint off ++ (encodeVarint len ++ stream))) acc
      = .error .outOfRange := by
  rw [deltaDecodeAux]
  simp only [if_neg (by omega : ¬ (1 : Nat) = 0)]
  split
  · next e he => simp [decodeVarint_encode] at he
  · next off₁ rest₁ he =>
    rw [decodeVarint_encode] at he
    obtain ⟨h₁, h₂⟩ : off = off₁ ∧ encodeVarint len ++ stream = rest₁ := by
      simpa using he
    subst h₁
    subst h₂
    split
    · next e he₂ => simp [decodeVarint_encode] at he₂
    · next len₁ rest₂ he₂ =>
      rw [decodeVarint_encode] at he₂
      obtain ⟨h₃, h₄⟩ : len = len₁ ∧ stream = rest₂ := by
        simpa using he₂
      subst h₃
      subst h₄
      rw [if_neg (by omega)]

theorem deltaDecodeAux_lone_tag (base acc : List Nat) :
    deltaDecodeAux base [1] acc = .error .truncated := by
  rw [deltaDecodeAux]
  simp only [if_neg (by omega : ¬ (1 : Nat) = 0)]
  split
  · next e he =>
    simp only [decodeVarint] at he
    obtain rfl : DecodeError.truncated = e := by simpa using he
    rfl
  · next off₁ rest₁ he => simp [decodeVarint] at he

theorem deltaDecodeAux_insert_trunc (base : List Nat) (declLen : Nat)
    (bs acc : List Nat) (hbad : bs.length < declLen) :
    deltaDecodeAux base (0 :: (encodeVarint declLen ++ bs)) acc
      = .error .truncated := by
  rw [deltaDecodeAux]
  split
  · split
    · next e he => simp [decodeVarint_encode] at he
    · next len₁ rest₁ he =>
      rw [decodeVarint_encode] at he
      obtain ⟨h₁, h₂⟩ : declLen = len₁ ∧ bs = rest₁ := by
        simpa using he
      subst h₁
      subst h₂
      rw [if_neg (by omega)]
  · next h => exact absurd rfl h

theorem matchLen_self : ∀ xs : List Nat, matchLen xs xs = xs.length := by
  intro xs
  induction xs with
  | nil => simp [matchLen]
  | cons a as₁ ih => simp [matchLen, ih]

theorem diffScan_nil_left :
    ∀ new : List Nat, diffScan [] new = new.map (fun b => .insert [b]) := by
  intro new
  induction new with
  | nil => simp [diffScan]
  | cons b rest ih =>
    rw [diffScan]
    split
    · next off hm => simp [firstMatch] at hm
    · next hm => simp [ih]

theorem diffScan_nil_right (old : List Nat) : diffScan old [] = [] := by
  rw [diffScan]

theorem diffScan_self (old : List Nat) (h : old ≠ []) :
    diffScan old old = [.copy 0 old.length] := by
  match old with
  | [] => exact absurd rfl h
  | b :: rest =>
    rw [diffScan]
    split
    · next off hm =>
      have h0 : firstMatch (b :: rest) b = some 0 := by simp [firstMatch]
      rw [h0] at hm
      obtain rfl : (0 : Nat) = off := by simpa using hm
      have hdrop : (b :: rest).drop (rest.length + 1) = [] := by
        have hlen : (b :: rest).length = rest.length + 1 := by simp
        rw [← hlen, List.drop_length]
      simp [matchLen_self, hdrop, diffScan_nil_right]
    · next hm => simp [firstMatch] at hm

theorem sum_copiedLen_le (base : List Nat) :
    ∀ insts : List DeltaInst, (∀ i ∈ insts, instOk base i) →
      (insts.map copiedLen).sum ≤ (applyList base insts).length := by
  intro insts
  induction insts with
  | nil => intro _; simp [applyList]
  | cons i tl ih =>
    intro hok
    have hi := hok i (by simp)
    have ihtl := ih (fun j hj => hok j (List.mem_cons_of_mem _ hj))
    cases i with
    | copy off len =>
      have hlen : (applyInst base (.copy off len)).length = len := by
        simp only [applyInst, List.length_take, List.length_drop]
        simp only [instOk] at hi
        omega
      simp only [applyList, List.map_cons, List.flatten_cons, List.length_append,
        copiedLen, List.sum_cons]
      simp only [applyList] at ihtl
      omega
    | insert bs =>
      simp only [applyList, List.map_cons, List.flatten_cons, List.length_append,
        copiedLen, List.sum_cons]
      simp only [applyList] at ihtl
      omega

/-- C1: for every pair of byte sequences `old` and `new`, applying the encoded
delta to `old` reconstructs `new` exactly:
`delta_decode old (delta_encode old new) = Except.ok new`.  Being universally
quantified, this covers in particular `old = new = []`, `old = []` with `new`
non-empty, `new = []` with `old` non-empty, and `old = new`. -/
theorem delta_roundtrip (old new : List Nat) :
    delta_decode old (delta_encode old new) = .ok new := by
  have h := diffScan_ok_and_covers old new
  have hs := deltaDecodeAux_serialize old (diffScan old new) [] [] h.1
  rw [List.append_nil] at hs
  show deltaDecodeAux old (serializeInsts (diffScan old new)) [] = .ok new
  rw [hs, deltaDecodeAux_nil]
  simp [h.2]

/-- C2: for every base, `delta_decode` rejects malformed deltas rather than
panicking or silently truncating: after any prefix of instructions valid for
the base, a copy instruction whose offset plus length exceeds the base's
length yields `DecodeError.outOfRange`, and a stream that ends mid-instruction
(a lone tag byte, or an insert whose declared literal length exceeds the bytes
remaining) yields `DecodeError.truncated`.  The decoder is a total function,
so no input panics. -/
theorem delta_decode_error_cases (base : List Nat) (insts : List DeltaInst)
    (off len declLen : Nat) (tail bs : List Nat)
    (hok : ∀ i ∈ insts, instOk base i) :
    (base.length < off + len →
        delta_decode base
            (serializeInsts insts ++ (1 :: (encodeVarint off ++ (encodeVarint len ++ tail))))
          = .error .outOfRange)
    ∧ delta_decode base (serializeInsts insts ++ [1]) = .error .truncated
    ∧ (bs.length < declLen →
        delta_decode base (serializeInsts insts ++ (0 :: (encodeVarint declLen ++ bs)))
          = .error .truncated) := by
  refine ⟨?_, ?_, ?_⟩
  · intro hbad
    show deltaDecodeAux base _ [] = _
    rw [deltaDecodeAux_serialize base insts _ [] hok,
      deltaDecodeAux_copy_oob base off len tail _ hbad]
  · show deltaDecodeAux base _ [] = _
    rw [deltaDecodeAux_serialize base insts _ [] hok, deltaDecodeAux_lone_tag]
  · intro hbad
    show deltaDecodeAux base _ [] = _
    rw [deltaDecodeAux_serialize base insts _ [] hok,
      deltaDecodeAux_insert_trunc base declLen bs _ hbad]

/-- Witness for C2 at a concrete base and concrete malformed deltas. -/
theorem delta_decode_error_cases_witness :
    delta_decode [9] (serializeInsts [] ++ (1 :: (encodeVarint 5 ++ (encodeVarint 3 ++ []))))
        = .error .outOfRange
    ∧ delta_decode [9] (serializeInsts [] ++ [1]) = .error .truncated
    ∧ delta_decode [9] (serializeInsts [] ++ (0 :: (encodeVarint 4 ++ [7])))
        = .error .truncated := by
  have h := delta_decode_error_cases [9] [] 5 3 4 [] [7] (by simp)
  exact ⟨h.1 (by decide), h.2.1, h.2.2 (by decide)⟩

/-- C3: the similarity ratio lies in the closed interval `[0, 1]`; it equals
`1` whenever `old = new`, and equals `0` whenever `old` is empty and `new` is
non-empty. -/
theorem delta_encode_rate_spec (old new : List Nat) :
    (0 ≤ delta_encode_rate old new ∧ delta_encode_rate old new ≤ 1)
    ∧ (old = new → delta_encode_rate old new = 1)
    ∧ (old = [] → new ≠ [] → delta_encode_rate old new = 0) := by
  have hrate : delta_encode_rate old new
      = if new.length = 0 then 1
        else (((diffScan old new).map copiedLen).sum : ℚ) / (new.length : ℚ) := rfl
  have hcover := diffScan_ok_and_covers old new
  have hle : ((diffScan old new).map copiedLen).sum ≤ new.length := by
    have h1 := sum_copiedLen_le old (diffScan old new) hcover.1
    rw [hcover.2] at h1
    exact h1
  refine ⟨?_, ?_, ?_⟩
  · rw [hrate]
    by_cases hlen : new.length = 0
    · simp [hlen]
    · have hL : (0 : ℚ) < (new.length : ℚ) := by
        exact_mod_cast Nat.pos_of_ne_zero hlen
      rw [if_neg hlen]
      constructor
      · exact div_nonneg (Nat.cast_nonneg _) (le_of_lt hL)
      · rw [div_le_one hL]
        exact_mod_cast hle
  · intro heq
    subst heq
    rw [hrate]
    by_cases hnil : old = []
    · subst hnil
      simp
    · have hlen0 : old.length ≠ 0 := by
        simpa using hnil
      rw [diffScan_self old hnil, if_neg hlen0]
      have hsum : (([DeltaInst.copy 0 old.length]).map copiedLen).sum = old.length := by
        simp [copiedLen]
      rw [hsum, div_self (by exact_mod_cast hlen0)]
  · intro h₁ h₂
    subst h₁
    have hlen0 : new.length ≠ 0 := by
      simpa using h₂
    rw [hrate, if_neg hlen0, diffScan_nil_left]
    have hzero : ((new.map (fun b => DeltaInst.insert [b])).map copiedLen).sum = 0 := by
      refine List.sum_eq_zero ?_
      intro x hx
      simp only [List.map_map, List.mem_map, Function.comp] at hx
      obtain ⟨b, _, hb⟩ := hx
      simp [copiedLen] at hb
      omega
    rw [hzero]
    simp

/-- Witness for C3: the ratio is 1 at `old = new = [3]` and 0 at `old = []`,
`new = [5]`. -/
theorem delta_encode_rate_spec_witness :
    delta_encode_rate [3] [3] = 1 ∧ delta_encode_rate [] [5] = 0 :=
  ⟨(delta_encode_rate_spec [3] [3]).2.1 rfl,
    (delta_encode_rate_spec [] [5]).2.2 rfl (by decide)⟩

/-- Counterexample for C4 as stated: at `old = new = []` the greedy scan emits
no instruction at all (the `new`-empty rule governs), so the encoded delta is
the empty instruction stream rather than a single copy instruction spanning
the (empty) sequence. -/
theorem delta_encode_empty_pair_counterexample :
    diffScan [] [] = [] ∧ delta_encode [] [] = []
      ∧ ([] : List DeltaInst) ≠ [DeltaInst.copy 0 0] := by
  refine ⟨diffScan_nil_right [], ?_, by simp⟩
  show serializeInsts (diffScan [] []) = []
  rw [diffScan_nil_right]
  rfl

/-- C4 (amended): when `old` is empty the encoded delta consists solely of
insert instructions covering all of `new`; when `new` is empty the encoded
delta is the empty instruction stream (this rule also governs the corner
`old = new = []`); when `old = new` is non-empty the encoded delta is a
single copy instruction spanning the whole sequence. -/
theorem delta_encode_edge_cases (old new : List Nat) :
    delta_encode [] new = serializeInsts (new.map fun b => DeltaInst.insert [b])
    ∧ delta_encode old [] = []
    ∧ (old ≠ [] → delta_encode old old = serializeInsts [DeltaInst.copy 0 old.length]) := by
  refine ⟨?_, ?_, ?_⟩
  · show serializeInsts (diffScan [] new) = _
    rw [diffScan_nil_left]
  · show serializeInsts (diffScan old []) = []
    rw [diffScan_nil_right]
    rfl
  · intro h
    show serializeInsts (diffScan old old) = _
    rw [diffScan_self old h]

/-- Witness for C4 (amended) at the non-empty pair `old = new = [7]`. -/
theorem delta_encode_edge_cases_witness :
    delta_encode [7] [7] = serializeInsts [DeltaInst.copy 0 1] :=
  (delta_encode_edge_cases [7] [5]).2.2 (by decide)

/-!
The object model of `venus/src/internal/object/blob.rs`.  The `SHA1`,
`ObjectType` and `GitError` types live in venus files that are not under
`src/`; they are modelled from the spec (a standard 160-bit SHA-1 digest over
the type tag, the decimal payload length and the payload, rendered as 40
lowercase hex digits).
-/

/-- Left rotation of a 32-bit word represented as a `Nat` below `2^32`. -/
def rotl (s x : Nat) : Nat :=
  ((x <<< s) ||| (x >>> (32 - s))) % 4294967296

/-- Big-endian byte rendering of `n` on exactly `k` bytes. -/
def beBytes : Nat → Nat → List Nat
  | 0, _ => []
  | k + 1, n => beBytes k (n / 256) ++ [n % 256]

/-- Group a byte list into big-endian 32-bit words (four bytes per word). -/
def beWords : List Nat → List Nat
  | a :: b :: c :: d :: rest => (((a * 256 + b) * 256 + c) * 256 + d) :: beWords rest
  | _ => []

/-- Modelled from the spec: SHA-1 padding — the byte `0x80`, zero bytes up to
56 mod 64, then the bit length on eight big-endian bytes. -/
def sha1Pad (msg : List Nat) : List Nat :=
  msg ++ 128 :: (List.replicate ((119 - msg.length % 64) % 64) 0
    ++ beBytes 8 (8 * msg.length))

/-- One step of the SHA-1 message-schedule extension: append the rotated xor
of the words 3, 8, 14 and 16 positions back. -/
def sha1ExtendStep (ws : List Nat) : List Nat :=
  let n := ws.length
  ws ++ [rotl 1 (((ws.getD (n - 3) 0) ^^^ (ws.getD (n - 8) 0)) ^^^
    ((ws.getD (n - 14) 0) ^^^ (ws.getD (n - 16) 0)))]

/-- Extend the 16 block words to the 80-word schedule. -/
def sha1Schedule (ws : List Nat) : List Nat :=
  (List.range 64).foldl (fun acc _ => sha1ExtendStep acc) ws

/-- The SHA-1 round function, selected by the round index. -/
def sha1F (t b c d : Nat) : Nat :=
  if t < 20 then (b &&& c) ||| ((4294967295 ^^^ b) &&& d)
  else if t < 40 then (b ^^^ c) ^^^ d
  else if t < 60 then ((b &&& c) ||| (b &&& d)) ||| (c &&& d)
  else (b ^^^ c) ^^^ d

/-- The SHA-1 round constant, selected by the round index. -/
def sha1K (t : Nat) : Nat :=
  if t < 20 then 1518500249
  else if t < 40 then 1859775393
  else if t < 60 then 2400959708
  else 3395469782

/-- One SHA-1 round on the five-word state, fed the round index and the
schedule word. -/
def sha1Round (st : Nat × Nat × Nat × Nat × Nat) (tw : Nat × Nat) :
    Nat × Nat × Nat × Nat × Nat :=
  let (a, b, c, d, e) := st
  let (t, w) := tw
  ((rotl 5 a + sha1F t b c d + e + sha1K t + w) % 4294967296, a, rotl 30 b, c, d)

/-- Compress one 64-byte block into the running five-word hash state. -/
def sha1Compress (h : List Nat) (block : List Nat) : List Nat :=
  let h0 := h.getD 0 0
  let h1 := h.getD 1 0
  let h2 := h.getD 2 0
  let h3 := h.getD 3 0
  let h4 := h.getD 4 0
  match (sha1Schedule (beWords block)).enum.foldl sha1Round (h0, h1, h2, h3, h4) with
  | (a, b, c, d, e) =>
    [(h0 + a) % 4294967296, (h1 + b) % 4294967296, (h2 + c) % 4294967296,
      (h3 + d) % 4294967296, (h4 + e) % 4294967296]

/-- Split a byte list into 64-byte blocks (structural recursion on a length
bound so the kernel can evaluate it). -/
def chunks64Aux : Nat → List Nat → List (List Nat)
  | 0, _ => []
  | _, [] => []
  | fuel + 1, b :: rest => ((b :: rest).take 64) :: chunks64Aux fuel ((b :: rest).drop 64)

def chunks64 (l : List Nat) : List (List Nat) := chunks64Aux l.length l

/-- The SHA-1 initial state. -/
def sha1Init : List Nat := [1732584193, 4023233417, 2562383102, 271733878, 3285377520]

/-- Modelled from the spec: the standard 160-bit SHA-1 digest of a byte
sequence, as 20 bytes. -/
def sha1Bytes (msg : List Nat) : List Nat :=
  (((chunks64 (sha1Pad msg)).foldl sha1Compress sha1Init).map (beBytes 4)).flatten

/-- ASCII decimal digits of `n`, most significant first (structural recursion
on a fuel bound so the kernel can evaluate it). -/
def natToDecAux : Nat → Nat → List Nat → List Nat
  | 0, _, acc => acc
  | fuel + 1, n, acc =>
    if n = 0 then acc else natToDecAux fuel (n / 10) ((48 + n % 10) :: acc)

def natToDecBytes (n : Nat) : List Nat :=
  if n = 0 then [48] else natToDecAux n n []

/-- Modelled from the spec: the closed set of object variants
(`venus/src/internal/object/types.rs`, not under src/). -/
inductive ObjectType where
  | blob : ObjectType
  | tree : ObjectType
  | commit : ObjectType
  | tag : ObjectType
deriving DecidableEq, Repr

/-- The ASCII type tag of an object variant, as written in the object header. -/
def ObjectType.typeBytes : ObjectType → List Nat
  | .blob => [98, 108, 111, 98]
  | .tree => [116, 114, 101, 101]
  | .commit => [99, 111, 109, 109, 105, 116]
  | .tag => [116, 97, 103]

/-- Modelled from the spec: a 160-bit digest, 20 bytes
(`venus/src/hash.rs`, not under src/). -/
structure SHA1 where
  bytes : List Nat
deriving DecidableEq, Repr

/-- Modelled from the spec: `SHA1::from_type_and_data` — the digest over the
concatenation of the type tag, a space, the decimal payload length, a NUL
byte and the payload. -/
def SHA1.from_type_and_data (t : ObjectType) (data : List Nat) : SHA1 :=
  ⟨sha1Bytes (t.typeBytes ++ [32] ++ natToDecBytes data.length ++ [0] ++ data)⟩

/-- The lowercase hexadecimal character of a value below 16. -/
def hexDigit (n : Nat) : Char :=
  if n < 10 then Char.ofNat (48 + n) else Char.ofNat (87 + n)

/-- Render a byte list as a lowercase hexadecimal string. -/
def bytesToHex (bs : List Nat) : String :=
  String.mk ((bs.map (fun b => [hexDigit (b / 16), hexDigit (b % 16)])).flatten)

/-- Modelled from the spec: `SHA1`'s `Display`, the 40-digit hex rendering. -/
def SHA1.to_string (h : SHA1) : String := bytesToHex h.bytes

/-- From `venus/src/errors.rs` (not under src/): only the construction-error
variant relevant to objects is modelled. -/
inductive GitError where
  | invalidObject : String → GitError

/-- The `Blob` struct of `venus/src/internal/object/blob.rs`: an id and the
raw payload bytes. -/
structure Blob where
  id : SHA1
  data : List Nat

/-- The `impl PartialEq for Blob` of `blob.rs`: two blobs are equal when
their `data` fields are equal; the `id` fields are ignored. -/
def Blob.eq (a b : Blob) : Bool := a.data == b.data

instance : BEq Blob := ⟨Blob.eq⟩

/-- `ObjectTrait::from_bytes` for `Blob` in `blob.rs`: wrap the bytes and the
caller-supplied hash, always `Ok`. -/
def Blob.from_bytes (data : List Nat) (hash : SHA1) : Except GitError Blob :=
  .ok { id := hash, data := data }

/-- `ObjectTrait::get_type` for `Blob` in `blob.rs`. -/
def Blob.get_type (_ : Blob) : ObjectType := .blob

/-- `ObjectTrait::get_size` for `Blob` in `blob.rs`: the payload length. -/
def Blob.get_size (b : Blob) : Nat := b.data.length

/-- `ObjectTrait::to_data` for `Blob` in `blob.rs`: the payload, always `Ok`. -/
def Blob.to_data (b : Blob) : Except GitError (List Nat) := .ok b.data

/-- UTF-8 encoding of a single code point, as in Rust's `str::as_bytes`. -/
def utf8EncodeCharNat (c : Nat) : List Nat :=
  if c < 128 then [c]
  else if c < 2048 then [192 + c / 64, 128 + c % 64]
  else if c < 65536 then [224 + c / 4096, 128 + c / 64 % 64, 128 + c % 64]
  else [240 + c / 262144, 128 + c / 4096 % 64, 128 + c / 64 % 64, 128 + c % 64]

/-- The UTF-8 bytes of a string (`content.as_bytes().to_vec()` in Rust). -/
def strBytes (s : String) : List Nat :=
  (s.data.map (fun c => utf8EncodeCharNat c.toNat)).flatten

/-- `Blob::from_content` in `blob.rs`: the only trusted creation path — the
digest is computed from the type tag and the content bytes, never supplied by
the caller. -/
def Blob.from_content (content : String) : Blob :=
  { id := SHA1.from_type_and_data .blob (strBytes content),
    data := strBytes content }

/-- C5: object serialization round-trip — for every `Blob` `x`, re-hydrating
its serialized bytes with its own id and serializing again yields the same
bytes: serializing, then `from_bytes` with `x.id`, then serializing again
gives exactly the original serialization. -/
theorem blob_roundtrip (x : Blob) :
    (Blob.to_data x).bind (fun bytes => (Blob.from_bytes bytes x.id).bind Blob.to_data)
      = Blob.to_data x := rfl

/-- C6: equality of blobs is payload equality, not identity equality — for
any two blobs, `==` holds exactly when the `data` fields agree, regardless of
the `id` fields; and two blobs re-hydrated from identical content with
different caller-supplied digests compare equal under `==` while their
digests differ. -/
theorem blob_eq_is_payload_eq (a b : Blob) (d : List Nat) (h₁ h₂ : SHA1)
    (hne : h₁ ≠ h₂) :
    ((a == b) = true ↔ a.data = b.data)
    ∧ ∃ b₁ b₂ : Blob,
        Blob.from_bytes d h₁ = .ok b₁ ∧ Blob.from_bytes d h₂ = .ok b₂
          ∧ (b₁ == b₂) = true ∧ b₁.id ≠ b₂.id := by
  refine ⟨?_, ⟨{ id := h₁, data := d }, { id := h₂, data := d }, rfl, rfl, ?_, hne⟩⟩
  · show (Blob.eq a b = true) ↔ a.data = b.data
    simp [Blob.eq]
  · show Blob.eq _ _ = true
    simp [Blob.eq]

/-- Witness for C6 at two concrete blobs with equal payload and distinct
digests. -/
theorem blob_eq_is_payload_eq_witness :
    ((Blob.mk ⟨[1]⟩ [9] == Blob.mk ⟨[2]⟩ [9]) = true
        ↔ (Blob.mk ⟨[1]⟩ [9]).data = (Blob.mk ⟨[2]⟩ [9]).data)
    ∧ ∃ b₁ b₂ : Blob,
        Blob.from_bytes [9] ⟨[1]⟩ = .ok b₁ ∧ Blob.from_bytes [9] ⟨[2]⟩ = .ok b₂
          ∧ (b₁ == b₂) = true ∧ b₁.id ≠ b₂.id :=
  blob_eq_is_payload_eq (Blob.mk ⟨[1]⟩ [9]) (Blob.mk ⟨[2]⟩ [9]) [9] ⟨[1]⟩ ⟨[2]⟩
    (by decide)

/-- C7: the trusted construction path maintains content addressing — for
every string, `Blob.from_content` stores exactly the UTF-8 bytes of the
content as `data` and computes `id` as the content hasher's digest over the
blob type tag and those bytes; the digest is derived from the payload, never
caller-supplied. -/
theorem blob_from_content_content_addressed (content : String) :
    (Blob.from_content content).data = strBytes content
    ∧ (Blob.from_content content).id
        = SHA1.from_type_and_data ObjectType.blob ((Blob.from_content content).data) :=
  ⟨rfl, rfl⟩

/-- C8: blob construction from bytes is total — `Blob::from_bytes` returns
`Ok` for every payload and every digest, since blobs impose no internal
structure on their payload. -/
theorem blob_from_bytes_total (data : List Nat) (hash : SHA1) :
    ∃ b : Blob, Blob.from_bytes data hash = .ok b :=
  ⟨{ id := hash, data := data }, rfl⟩

set_option maxRecDepth 100000 in
/-- C9: content hasher reference fixture — `Blob::from_content("Hello,
world!")` has an id rendering as `5dd01c177f5d7d1be5346a5bc18a569a7410c2ef`,
the standard SHA-1 of the typed payload. -/
theorem blob_hello_world_digest :
    (Blob.from_content "Hello, world!").id.to_string
      = "5dd01c177f5d7d1be5346a5bc18a569a7410c2ef" := by
  decide

/-- C10: `Blob::from_bytes` performs no digest verification and preserves its
inputs verbatim — for every payload `d` and every digest `h` (in particular
one that is not the true hash of `d`) it returns `Ok` with `id` exactly `h`
and `data` exactly `d`, and on the resulting blob `get_size` is `d.length`
and `to_data` is `d`. -/
theorem blob_from_bytes_no_verification (d : List Nat) (h : SHA1) :
    Blob.from_bytes d h = .ok { id := h, data := d }
    ∧ (Blob.mk h d).id = h
    ∧ (Blob.mk h d).data = d
    ∧ (Blob.mk h d).get_size = d.length
    ∧ (Blob.mk h d).to_data = .ok d :=
  ⟨rfl, rfl, rfl, rfl, rfl⟩

end Mega
